import Mathlib

/-!
Verification of the word-separation core of `src/g/a.py`
(`separate_words_enhanced`): boundary splitting on case/digit transitions
followed by greedy longest-match segmentation against a word knowledge base.

Strings are modelled as `List Char`.  The regex character classes are the
ASCII sets the patterns denote, `str.lower` is modelled on ASCII letters,
and `str.strip()`'s whitespace set is modelled in full (all characters
Python's `str.isspace()` accepts).  The word knowledge base is modelled as
the set-membership test the code performs: a `List Char → Bool` applied to
the case-folded probe.  The `while current_pos < len(part)` scan is
embedded with explicit fuel; fuel `part.length` is always enough, which is
proved as the termination theorem.
-/

namespace WordSep

/-- The word knowledge base: `word_list_set` membership, as a Boolean test. -/
abbrev KB := List Char → Bool

/-- Build a knowledge base from a finite list of words (a concrete
`word_list_set`). -/
def mkKB (ws : List String) : KB := fun w => ws.any fun x => x.data == w

/-- Character class `[a-z]` of the Python regexes. -/
def isLowAZ (c : Char) : Bool := 'a' ≤ c && c ≤ 'z'

/-- Character class `[A-Z]` of the Python regexes. -/
def isUpAZ (c : Char) : Bool := 'A' ≤ c && c ≤ 'Z'

/-- Character class `[a-zA-Z]` of the Python regexes. -/
def isLetterAZ (c : Char) : Bool := isLowAZ c || isUpAZ c

/-- Character class `\d` of the Python regexes (ASCII digits). -/
def isDigit09 (c : Char) : Bool := '0' ≤ c && c ≤ '9'

/-- The whitespace stripped by Python `str.strip()`: exactly the
characters for which `str.isspace()` holds, namely U+0009–U+000D,
U+001C–U+001F, the space, U+0085, U+00A0, U+1680, U+2000–U+200A,
U+2028, U+2029, U+202F, U+205F and U+3000. -/
def isPySpace (c : Char) : Bool :=
  c = ' ' || ('\t' ≤ c && c ≤ '\x0d') || ('\x1c' ≤ c && c ≤ '\x1f') ||
  c = '\x85' || c = '\xa0' || c = '\u1680' ||
  ('\u2000' ≤ c && c ≤ '\u200a') ||
  c = '\u2028' || c = '\u2029' || c = '\u202f' || c = '\u205f' || c = '\u3000'

/-- Python `str.lower()` on ASCII: case-fold each character. -/
def lowerStr (l : List Char) : List Char := l.map Char.toLower

/-- Pass `re.sub(r'(?<=[a-z])(?=[A-Z])', ' ', text)`: insert a space at
every position whose left neighbour is a lowercase and whose right
neighbour is an uppercase letter. -/
def sub1 : List Char → List Char
  | [] => []
  | [c] => [c]
  | a :: b :: rest =>
    if isLowAZ a ∧ isUpAZ b then a :: ' ' :: sub1 (b :: rest)
    else a :: sub1 (b :: rest)

/-- Pass `re.sub(r'(?<=[A-Z])(?=[A-Z][a-z])', ' ', ...)`: insert a space
between an uppercase letter and an uppercase-then-lowercase pair. -/
def sub2 : List Char → List Char
  | a :: b :: c :: rest =>
    if isUpAZ a ∧ isUpAZ b ∧ isLowAZ c then a :: ' ' :: sub2 (b :: c :: rest)
    else a :: sub2 (b :: c :: rest)
  | l => l

/-- Pass `re.sub(r'(?<=[a-zA-Z])(?=\d)', ' ', ...)`: insert a space
between a letter and a digit. -/
def sub3 : List Char → List Char
  | a :: b :: rest =>
    if isLetterAZ a ∧ isDigit09 b then a :: ' ' :: sub3 (b :: rest)
    else a :: sub3 (b :: rest)
  | l => l

/-- Pass `re.sub(r'(?<=\d)(?=[a-zA-Z])', ' ', ...)`: insert a space
between a digit and a letter. -/
def sub4 : List Char → List Char
  | a :: b :: rest =>
    if isDigit09 a ∧ isLetterAZ b then a :: ' ' :: sub4 (b :: rest)
    else a :: sub4 (b :: rest)
  | l => l

/-- Pass `re.sub(r' +', ' ', ...)`: collapse each run of spaces to one
space. -/
def collapseSpaces : List Char → List Char
  | [] => []
  | [c] => [c]
  | a :: b :: rest =>
    if a = ' ' ∧ b = ' ' then collapseSpaces (b :: rest)
    else a :: collapseSpaces (b :: rest)

/-- Python `str.strip()`: drop leading and trailing whitespace. -/
def pyStrip (l : List Char) : List Char :=
  ((l.dropWhile isPySpace).reverse.dropWhile isPySpace).reverse

/-- Helper of `splitOnSpace`: prepend a character to the first piece. -/
def consHead (c : Char) : List (List Char) → List (List Char)
  | [] => [[c]]
  | p :: ps => (c :: p) :: ps

/-- Python `str.split(' ')`: split on every single space, keeping empty
pieces (`"".split(' ') == ['']`). -/
def splitOnSpace : List Char → List (List Char)
  | [] => [[]]
  | c :: rest =>
    if c = ' ' then [] :: splitOnSpace rest
    else consHead c (splitOnSpace rest)

/-- The four regex passes, the space collapse and the `strip()` of
`separate_words_enhanced` before `split(' ')`. -/
def cleanupBoundaries (text : List Char) : List Char :=
  pyStrip (collapseSpaces (sub4 (sub3 (sub2 (sub1 text)))))

/-- The `initial_parts` of `separate_words_enhanced` (empty pieces
included, as produced by `split(' ')`). -/
def initialParts (text : List Char) : List (List Char) :=
  splitOnSpace (cleanupBoundaries text)

/-- The boundary-splitter output: `initial_parts` with the empty pieces
dropped (the loop skips them with `if not part: continue`). -/
def split_boundaries (text : List Char) : List (List Char) :=
  (initialParts text).filter fun p => !p.isEmpty

/-- All probes `part[current_pos : i+1]` tried from one cursor position,
as the nonempty prefixes of the remaining suffix, in increasing length. -/
def probes (s : List Char) : List (List Char) :=
  (List.range s.length).map fun i => s.take (i + 1)

/-- The inner `for i in range(current_pos, len(part))` search:
keep the candidate whenever it is a case-folded knowledge-base member
strictly longer than the best so far. -/
def scanBest (kb : KB) : List Char → List (List Char) → List Char
  | best, [] => best
  | best, sub :: rest =>
    if kb (lowerStr sub) ∧ best.length < sub.length then scanBest kb sub rest
    else scanBest kb best rest

/-- The `while current_pos < len(part)` scan, with explicit fuel.
A found best match is appended and the cursor advances past it; on a miss
the whole remainder is appended and the scan stops.  Fuel `≥ s.length`
never runs out (proved below); the fuel-exhaustion branch mirrors the
miss branch. -/
def segmentLoopF (kb : KB) : Nat → List Char → List (List Char)
  | _, [] => []
  | 0, c :: t => [c :: t]
  | fuel + 1, c :: t =>
    let best := scanBest kb [] (probes (c :: t))
    if best.isEmpty then [c :: t]
    else best :: segmentLoopF kb fuel ((c :: t).drop best.length)

/-- Per-part processing of `separate_words_enhanced` (the spec's
`segment`): known words pass through unchanged; otherwise the greedy scan
runs, and a scan that produced at most one segment is replaced by the
original part. -/
def segment (kb : KB) (part : List Char) : List (List Char) :=
  if kb (lowerStr part) then [part]
  else
    let segs := segmentLoopF kb part.length part
    if 1 < segs.length then segs else [part]

/-- Join with single spaces: Python `' '.join(...)`. -/
def joinSpace : List (List Char) → List Char
  | [] => []
  | [p] => p
  | p :: q :: rest => p ++ ' ' :: joinSpace (q :: rest)

/-- The function `separate_words_enhanced(text, word_list_set)` of
`src/g/a.py`. -/
def separate_words_enhanced (kb : KB) (text : List Char) : List Char :=
  if text.isEmpty then []
  else pyStrip (joinSpace ((split_boundaries text).flatMap (segment kb)))

/-- Remove every space character (used to state losslessness). -/
def removeSpaces (l : List Char) : List Char :=
  l.filter fun c => decide (c ≠ ' ')

/-- Every whitespace character of the string is a plain space (true of
every intermediate string of the pipeline when the input itself contains
no whitespace, since the pipeline only ever inserts spaces). -/
def spacey (l : List Char) : Prop := ∀ c ∈ l, isPySpace c = true → c = ' '

/-- Whether the string contains two adjacent spaces.  Used to state that
the output of `separate` never does, while an input with a run of spaces
always does. -/
def hasDbl : List Char → Bool
  | [] => false
  | [_] => false
  | a :: b :: rest => (decide (a = ' ') && decide (b = ' ')) || hasDbl (b :: rest)

/-- The output of boundary splitting alone, following the spec's words:
the boundary-split tokens joined with single spaces (with the join-layer
trim and the empty-input guard of `separate`).  Used to state the
refinement claim that an empty knowledge base makes `separate` collapse
to boundary splitting. -/
def boundary_splitting_only (text : List Char) : List Char :=
  if text.isEmpty then []
  else pyStrip (joinSpace (split_boundaries text))

/-! ### Facts about the inner longest-match search -/

theorem scanBest_eq_or (kb : KB) :
    ∀ (cands : List (List Char)) (best : List Char),
      scanBest kb best cands = best ∨
        (scanBest kb best cands ∈ cands ∧
          kb (lowerStr (scanBest kb best cands)) = true) := by
  intro cands
  induction cands with
  | nil => intro best; left; rfl
  | cons c rest ih =>
    intro best
    simp only [scanBest]
    split
    · next h =>
      rcases ih c with h1 | h1
      · right
        refine ⟨?_, ?_⟩
        · rw [h1]; exact List.mem_cons_self c rest
        · rw [h1]; exact h.1
      · exact Or.inr ⟨List.mem_cons_of_mem _ h1.1, h1.2⟩
    · rcases ih best with h1 | h1
      · exact Or.inl h1
      · exact Or.inr ⟨List.mem_cons_of_mem _ h1.1, h1.2⟩

theorem scanBest_len_le (kb : KB) :
    ∀ (cands : List (List Char)) (best : List Char),
      best.length ≤ (scanBest kb best cands).length := by
  intro cands
  induction cands with
  | nil => intro best; exact Nat.le_refl _
  | cons c rest ih =>
    intro best
    simp only [scanBest]
    split
    · next h => exact Nat.le_trans (Nat.le_of_lt h.2) (ih c)
    · exact ih best

theorem scanBest_all_le (kb : KB) :
    ∀ (cands : List (List Char)) (best c : List Char),
      c ∈ cands → kb (lowerStr c) = true →
      c.length ≤ (scanBest kb best cands).length := by
  intro cands
  induction cands with
  | nil => intro best c hc; exact absurd hc (List.not_mem_nil c)
  | cons d rest ih =>
    intro best c hc hkb
    rcases List.mem_cons.mp hc with rfl | hc
    · simp only [scanBest]
      split
      · exact scanBest_len_le kb rest c
      · next h =>
        have hle : c.length ≤ best.length := by
          by_contra hlt
          exact h ⟨hkb, Nat.lt_of_not_le hlt⟩
        exact Nat.le_trans hle (scanBest_len_le kb rest best)
    · simp only [scanBest]
      split
      · exact ih d c hc hkb
      · exact ih best c hc hkb

theorem scanBest_none (kb : KB) :
    ∀ (cands : List (List Char)),
      (∀ c ∈ cands, kb (lowerStr c) = false) →
      ∀ best, scanBest kb best cands = best := by
  intro cands
  induction cands with
  | nil => intro _ best; rfl
  | cons c rest ih =>
    intro hall best
    simp only [scanBest]
    split
    · next h =>
      have := hall c (List.mem_cons_self c rest)
      rw [this] at h
      exact absurd h.1 (by simp)
    · exact ih (fun d hd => hall d (List.mem_cons_of_mem _ hd)) best

theorem mem_probes {s x : List Char} :
    x ∈ probes s ↔ ∃ i, i < s.length ∧ x = s.take (i + 1) := by
  simp only [probes, List.mem_map, List.mem_range]
  exact ⟨fun ⟨i, hi, he⟩ => ⟨i, hi, he.symm⟩, fun ⟨i, hi, he⟩ => ⟨i, hi, he.symm⟩⟩

theorem probes_ne_nil {s p : List Char} (hp : p ∈ probes s) : p ≠ [] := by
  rcases mem_probes.mp hp with ⟨i, hi, rfl⟩
  have : (s.take (i + 1)).length = i + 1 := by
    rw [List.length_take]
    exact Nat.min_eq_left (Nat.succ_le_of_lt hi)
  intro hnil
  rw [hnil] at this
  exact Nat.succ_ne_zero i this.symm

/-- The winning match is a prefix of the scanned suffix: putting back the
dropped rest reconstructs the suffix. -/
theorem scanBest_append_drop (kb : KB) (s : List Char)
    (h : scanBest kb [] (probes s) ≠ []) :
    scanBest kb [] (probes s) ++ s.drop (scanBest kb [] (probes s)).length = s := by
  rcases scanBest_eq_or kb (probes s) [] with h1 | h1
  · exact absurd h1 h
  · rcases mem_probes.mp h1.1 with ⟨i, hi, he⟩
    rw [he, List.length_take, Nat.min_eq_left (Nat.succ_le_of_lt hi)]
    exact List.take_append_drop (i + 1) s

/-! ### Facts about the scanning loop -/

/-- Concatenating the segments of the scan reconstructs the scanned
suffix, for any fuel. -/
theorem segmentLoopF_flatten (kb : KB) :
    ∀ (fuel : Nat) (s : List Char), (segmentLoopF kb fuel s).flatten = s := by
  intro fuel
  induction fuel with
  | zero => intro s; cases s <;> simp [segmentLoopF]
  | succ f ih =>
    intro s
    cases s with
    | nil => simp [segmentLoopF]
    | cons c t =>
      simp only [segmentLoopF]
      split
      · simp
      · next h =>
        rw [List.flatten_cons, ih]
        exact scanBest_append_drop kb (c :: t) (by simpa using h)

/-- Every segment except possibly the last is a case-folded
knowledge-base member, for any fuel. -/
theorem segmentLoopF_dropLast (kb : KB) :
    ∀ (fuel : Nat) (s w : List Char),
      w ∈ (segmentLoopF kb fuel s).dropLast → kb (lowerStr w) = true := by
  intro fuel
  induction fuel with
  | zero => intro s w hw; cases s <;> simp [segmentLoopF] at hw
  | succ f ih =>
    intro s w hw
    cases s with
    | nil => simp [segmentLoopF] at hw
    | cons c t =>
      simp only [segmentLoopF] at hw
      by_cases hb : (scanBest kb [] (probes (c :: t))).isEmpty
      · rw [if_pos hb] at hw
        simp at hw
      · rw [if_neg hb] at hw
        have hne : scanBest kb [] (probes (c :: t)) ≠ [] := by simpa using hb
        cases hrest : segmentLoopF kb f ((c :: t).drop
            (scanBest kb [] (probes (c :: t))).length) with
        | nil => rw [hrest] at hw; simp at hw
        | cons r rs =>
          rw [hrest, List.dropLast_cons₂, List.mem_cons] at hw
          rcases hw with rfl | hw
          · rcases scanBest_eq_or kb (probes (c :: t)) [] with h1 | h1
            · exact absurd h1 hne
            · exact h1.2
          · exact ih _ w (by rw [hrest]; exact hw)

/-- The segments produced for one part concatenate back to the part. -/
theorem segment_flatten (kb : KB) (t : List Char) :
    (segment kb t).flatten = t := by
  by_cases hf : kb (lowerStr t)
  · simp [segment, hf]
  · by_cases hlen : 1 < (segmentLoopF kb t.length t).length
    · simp only [segment, if_neg hf, if_pos hlen]
      exact segmentLoopF_flatten kb t.length t
    · simp [segment, hf, hlen]

/-- Fuel is irrelevant once it reaches the suffix length: the scan
terminates within `s.length` steps because every successful match
advances the cursor by at least one character. -/
theorem segmentLoopF_fuel (kb : KB) :
    ∀ (fuel : Nat) (s : List Char), s.length ≤ fuel →
      segmentLoopF kb fuel s = segmentLoopF kb s.length s := by
  intro fuel
  induction fuel using Nat.strong_induction_on with
  | _ fuel ih =>
    intro s hs
    cases s with
    | nil => cases fuel <;> rfl
    | cons c t =>
      cases fuel with
      | zero => simp at hs
      | succ f =>
        have hf : t.length ≤ f := by simpa using hs
        show segmentLoopF kb (f + 1) (c :: t) =
          segmentLoopF kb (t.length + 1) (c :: t)
        simp only [segmentLoopF]
        by_cases hb : (scanBest kb [] (probes (c :: t))).isEmpty
        · rw [if_pos hb, if_pos hb]
        · rw [if_neg hb, if_neg hb]
          have hne : scanBest kb [] (probes (c :: t)) ≠ [] := by simpa using hb
          have hpos : 0 < (scanBest kb [] (probes (c :: t))).length :=
            List.length_pos.mpr hne
          have hd : ((c :: t).drop (scanBest kb [] (probes (c :: t))).length).length
              ≤ t.length := by
            rw [List.length_drop, List.length_cons]
            omega
          have h1 := ih f (Nat.lt_succ_self f) _ (Nat.le_trans hd hf)
          have h2 := ih t.length (by omega) _ hd
          rw [h1, h2]

/-! ### Claim theorems -/

/-- C3: At each cursor position the segmenter selects the longest
substring starting there whose case-folded form is in `kb` (it is a
knowledge-base hit, a prefix of the remaining suffix, and no matching
probe is longer), and the loop advances past it; in particular
`segment("them", {"the","them","hem"}) == ["them"]`. -/
theorem greedy_longest_match (kb : KB) (s : List Char) (k : Nat)
    (hk : k < s.length) (hkb : kb (lowerStr (s.take (k + 1))) = true) :
    (kb (lowerStr (scanBest kb [] (probes s))) = true ∧
      (∃ j, j < s.length ∧ scanBest kb [] (probes s) = s.take (j + 1)) ∧
      (∀ i, i < s.length → kb (lowerStr (s.take (i + 1))) = true →
        i + 1 ≤ (scanBest kb [] (probes s)).length) ∧
      segmentLoopF kb s.length s =
        scanBest kb [] (probes s) ::
          segmentLoopF kb (s.length - 1)
            (s.drop (scanBest kb [] (probes s)).length)) ∧
    segment (mkKB ["the", "them", "hem"]) "them".data = ["them".data] := by
  have htk : ∀ i, i < s.length → (s.take (i + 1)).length = i + 1 := by
    intro i hi
    rw [List.length_take]
    exact Nat.min_eq_left (Nat.succ_le_of_lt hi)
  have hmem : s.take (k + 1) ∈ probes s := mem_probes.mpr ⟨k, hk, rfl⟩
  have hlow : k + 1 ≤ (scanBest kb [] (probes s)).length := by
    have := scanBest_all_le kb (probes s) [] _ hmem hkb
    rwa [htk k hk] at this
  have hne : scanBest kb [] (probes s) ≠ [] := by
    intro h0
    rw [h0] at hlow
    simp at hlow
  have hor := scanBest_eq_or kb (probes s) []
  rcases hor with h1 | h1
  · exact absurd h1 hne
  refine ⟨⟨h1.2, ?_, ?_, ?_⟩, by decide⟩
  · rcases mem_probes.mp h1.1 with ⟨j, hj, he⟩
    exact ⟨j, hj, he⟩
  · intro i hi hkbi
    have := scanBest_all_le kb (probes s) [] _ (mem_probes.mpr ⟨i, hi, rfl⟩) hkbi
    rwa [htk i hi] at this
  · cases s with
    | nil => simp at hk
    | cons c t =>
      show segmentLoopF kb (t.length + 1) (c :: t) = _
      simp only [segmentLoopF]
      rw [if_neg (by simpa using hne)]
      simp

/-- Witness for C3 at `s = "them"`, `k = 3`, `kb = {"the","them","hem"}`. -/
theorem greedy_longest_match_witness :
    (3 < "them".data.length ∧
      mkKB ["the", "them", "hem"] (lowerStr ("them".data.take (3 + 1))) = true) ∧
    ((mkKB ["the", "them", "hem"]
        (lowerStr (scanBest (mkKB ["the", "them", "hem"]) [] (probes "them".data))) = true ∧
      (∃ j, j < "them".data.length ∧
        scanBest (mkKB ["the", "them", "hem"]) [] (probes "them".data) =
          "them".data.take (j + 1)) ∧
      (∀ i, i < "them".data.length →
        mkKB ["the", "them", "hem"] (lowerStr ("them".data.take (i + 1))) = true →
        i + 1 ≤ (scanBest (mkKB ["the", "them", "hem"]) [] (probes "them".data)).length) ∧
      segmentLoopF (mkKB ["the", "them", "hem"]) "them".data.length "them".data =
        scanBest (mkKB ["the", "them", "hem"]) [] (probes "them".data) ::
          segmentLoopF (mkKB ["the", "them", "hem"]) ("them".data.length - 1)
            ("them".data.drop
              (scanBest (mkKB ["the", "them", "hem"]) [] (probes "them".data)).length)) ∧
    segment (mkKB ["the", "them", "hem"]) "them".data = ["them".data]) :=
  ⟨⟨by decide, by decide⟩,
    greedy_longest_match (mkKB ["the", "them", "hem"]) "them".data 3
      (by decide) (by decide)⟩

/-- C4: when no substring starting at the cursor is a known word, the
whole remainder is appended as one final segment and the scan of the
token stops; in particular
`segment("goldfishxyz", {"gold","fish"}) == ["gold","fish","xyz"]`. -/
theorem unmatched_remainder_stop (kb : KB) (s : List Char) (hs : s ≠ [])
    (hnone : ∀ i, i < s.length → kb (lowerStr (s.take (i + 1))) = false) :
    segmentLoopF kb s.length s = [s] ∧
      segment (mkKB ["gold", "fish"]) "goldfishxyz".data =
        ["gold".data, "fish".data, "xyz".data] := by
  have hall : ∀ c ∈ probes s, kb (lowerStr c) = false := by
    intro c hc
    rcases mem_probes.mp hc with ⟨i, hi, rfl⟩
    exact hnone i hi
  have hbest : scanBest kb [] (probes s) = [] := scanBest_none kb (probes s) hall []
  refine ⟨?_, by decide⟩
  cases s with
  | nil => exact absurd rfl hs
  | cons c t =>
    show segmentLoopF kb (t.length + 1) (c :: t) = [c :: t]
    simp only [segmentLoopF]
    rw [if_pos (by simp [hbest])]

/-- Witness for C4 at `s = "xyz"`, `kb = {"gold","fish"}`. -/
theorem unmatched_remainder_stop_witness :
    ("xyz".data ≠ [] ∧
      (∀ i, i < "xyz".data.length →
        mkKB ["gold", "fish"] (lowerStr ("xyz".data.take (i + 1))) = false)) ∧
    (segmentLoopF (mkKB ["gold", "fish"]) "xyz".data.length "xyz".data = ["xyz".data] ∧
      segment (mkKB ["gold", "fish"]) "goldfishxyz".data =
        ["gold".data, "fish".data, "xyz".data]) :=
  ⟨⟨by decide, by decide⟩,
    unmatched_remainder_stop (mkKB ["gold", "fish"]) "xyz".data
      (by decide) (by decide)⟩

/-- C5: when the greedy scan produces exactly one segment (full-token
match or immediate unmatched remainder), `segment` returns the original
token unchanged; in particular `segment("qzqzqz", kb) == ["qzqzqz"]`
for a `kb` matching no substring of `"qzqzqz"`. -/
theorem single_segment_suppression (kb : KB) (t : List Char)
    (h : (segmentLoopF kb t.length t).length = 1) :
    segment kb t = [t] ∧
      segment (mkKB ["gold", "fish"]) "qzqzqz".data = ["qzqzqz".data] := by
  refine ⟨?_, by decide⟩
  by_cases hf : kb (lowerStr t)
  · simp [segment, hf]
  · simp [segment, hf, h]

/-- Witness for C5 at `t = "gold"` (a full-token match),
`kb = {"gold","fish"}`. -/
theorem single_segment_suppression_witness :
    (segmentLoopF (mkKB ["gold", "fish"]) "gold".data.length "gold".data).length = 1 ∧
      (segment (mkKB ["gold", "fish"]) "gold".data = ["gold".data] ∧
        segment (mkKB ["gold", "fish"]) "qzqzqz".data = ["qzqzqz".data]) :=
  ⟨by decide,
    single_segment_suppression (mkKB ["gold", "fish"]) "gold".data (by decide)⟩

/-- C6: the segments of a token concatenate (without separators) to
exactly the token, and every segment except possibly the last is a
case-folded knowledge-base member. -/
theorem segment_reconstructs_token (kb : KB) (t : List Char) :
    (segment kb t).flatten = t ∧
      ∀ w ∈ (segment kb t).dropLast, kb (lowerStr w) = true := by
  refine ⟨segment_flatten kb t, ?_⟩
  by_cases hf : kb (lowerStr t)
  · intro w hw
    simp [segment, hf] at hw
  · by_cases hlen : 1 < (segmentLoopF kb t.length t).length
    · intro w hw
      simp only [segment, if_neg hf, if_pos hlen] at hw
      exact segmentLoopF_dropLast kb t.length t w hw
    · intro w hw
      simp [segment, hf, hlen] at hw

/-- C10: the greedy scanning loop terminates for every token and every
knowledge base (even one containing the empty string): fuel `s.length`
already yields the loop's final answer, because every probed substring
is non-empty, so each match advances the cursor. -/
theorem scan_loop_terminates (kb : KB) (s : List Char) (fuel : Nat)
    (h : s.length ≤ fuel) :
    segmentLoopF kb fuel s = segmentLoopF kb s.length s ∧
      ∀ p ∈ probes s, p ≠ [] :=
  ⟨segmentLoopF_fuel kb fuel s h, fun _ hp => probes_ne_nil hp⟩

/-- Witness for C10 at `s = "ab"`, `fuel = 5`, a `kb` containing the
empty string. -/
theorem scan_loop_terminates_witness :
    "ab".data.length ≤ 5 ∧
      (segmentLoopF (mkKB ["", "ab"]) 5 "ab".data =
          segmentLoopF (mkKB ["", "ab"]) "ab".data.length "ab".data ∧
        ∀ p ∈ probes "ab".data, p ≠ []) :=
  ⟨by decide, scan_loop_terminates (mkKB ["", "ab"]) "ab".data 5 (by decide)⟩

/-! ### Losslessness: each pipeline stage preserves the non-space
characters in order -/

theorem removeSpaces_cons (c : Char) (l : List Char) :
    removeSpaces (c :: l) =
      if c = ' ' then removeSpaces l else c :: removeSpaces l := by
  by_cases h : c = ' ' <;> simp [removeSpaces, List.filter_cons, h]

theorem removeSpaces_space_cons (l : List Char) :
    removeSpaces (' ' :: l) = removeSpaces l := by
  simp [removeSpaces_cons]

theorem removeSpaces_cons_congr (a : Char) {x y : List Char}
    (h : removeSpaces x = removeSpaces y) :
    removeSpaces (a :: x) = removeSpaces (a :: y) := by
  by_cases ha : a = ' ' <;> simp [removeSpaces_cons, ha, h]

theorem removeSpaces_append (x y : List Char) :
    removeSpaces (x ++ y) = removeSpaces x ++ removeSpaces y := by
  simp [removeSpaces, List.filter_append]

theorem removeSpaces_reverse (l : List Char) :
    removeSpaces l.reverse = (removeSpaces l).reverse := by
  simp [removeSpaces, List.filter_reverse]

theorem mem_of_mem_removeSpaces {l : List Char} {c : Char}
    (h : c ∈ removeSpaces l) : c ∈ l :=
  List.mem_of_mem_filter h

theorem removeSpaces_idem (l : List Char) :
    removeSpaces (removeSpaces l) = removeSpaces l := by
  simp [removeSpaces, List.filter_filter]

theorem removeSpaces_sub1 : ∀ l, removeSpaces (sub1 l) = removeSpaces l := by
  intro l
  induction l with
  | nil => rfl
  | cons a t ih =>
    cases t with
    | nil => rfl
    | cons b r =>
      simp only [sub1]
      split
      · exact removeSpaces_cons_congr a (by rw [removeSpaces_space_cons]; exact ih)
      · exact removeSpaces_cons_congr a ih

theorem removeSpaces_sub2 : ∀ l, removeSpaces (sub2 l) = removeSpaces l := by
  intro l
  induction l with
  | nil => rfl
  | cons a t ih =>
    cases t with
    | nil => rfl
    | cons b r =>
      cases r with
      | nil => rfl
      | cons c rr =>
        simp only [sub2]
        split
        · exact removeSpaces_cons_congr a (by rw [removeSpaces_space_cons]; exact ih)
        · exact removeSpaces_cons_congr a ih

theorem removeSpaces_sub3 : ∀ l, removeSpaces (sub3 l) = removeSpaces l := by
  intro l
  induction l with
  | nil => rfl
  | cons a t ih =>
    cases t with
    | nil => rfl
    | cons b r =>
      simp only [sub3]
      split
      · exact removeSpaces_cons_congr a (by rw [removeSpaces_space_cons]; exact ih)
      · exact removeSpaces_cons_congr a ih

theorem removeSpaces_sub4 : ∀ l, removeSpaces (sub4 l) = removeSpaces l := by
  intro l
  induction l with
  | nil => rfl
  | cons a t ih =>
    cases t with
    | nil => rfl
    | cons b r =>
      simp only [sub4]
      split
      · exact removeSpaces_cons_congr a (by rw [removeSpaces_space_cons]; exact ih)
      · exact removeSpaces_cons_congr a ih

theorem removeSpaces_collapseSpaces :
    ∀ l, removeSpaces (collapseSpaces l) = removeSpaces l := by
  intro l
  induction l with
  | nil => rfl
  | cons a t ih =>
    cases t with
    | nil => rfl
    | cons b r =>
      simp only [collapseSpaces]
      split
      · next h => rw [ih, h.1, removeSpaces_space_cons]
      · exact removeSpaces_cons_congr a ih

theorem spacey_of_subset {x l : List Char} (hsub : x ⊆ l) (h : spacey l) :
    spacey x := fun c hc => h c (hsub hc)

theorem removeSpaces_dropWhile :
    ∀ l, spacey l → removeSpaces (l.dropWhile isPySpace) = removeSpaces l := by
  intro l
  induction l with
  | nil => intro _; rfl
  | cons a t ih =>
    intro h
    by_cases ha : isPySpace a
    · rw [List.dropWhile_cons_of_pos ha,
        ih (fun c hc hs => h c (List.mem_cons_of_mem _ hc) hs),
        h a (List.mem_cons_self a t) ha, removeSpaces_space_cons]
    · rw [List.dropWhile_cons_of_neg ha]

theorem removeSpaces_pyStrip (l : List Char) (h : spacey l) :
    removeSpaces (pyStrip l) = removeSpaces l := by
  have h1 : spacey (l.dropWhile isPySpace) :=
    spacey_of_subset (List.dropWhile_subset _) h
  have h2 : spacey (l.dropWhile isPySpace).reverse :=
    spacey_of_subset (fun c hc => List.mem_reverse.mp hc) h1
  unfold pyStrip
  rw [removeSpaces_reverse, removeSpaces_dropWhile _ h2, removeSpaces_reverse,
    List.reverse_reverse, removeSpaces_dropWhile _ h]

theorem flatten_consHead (c : Char) (ps : List (List Char)) :
    (consHead c ps).flatten = c :: ps.flatten := by
  cases ps <;> simp [consHead]

theorem flatten_splitOnSpace :
    ∀ l, (splitOnSpace l).flatten = removeSpaces l := by
  intro l
  induction l with
  | nil => rfl
  | cons c t ih =>
    simp only [splitOnSpace]
    split
    · next h =>
      rw [List.flatten_cons, List.nil_append, ih, h, removeSpaces_space_cons]
    · next h =>
      rw [flatten_consHead, ih, removeSpaces_cons, if_neg h]

theorem flatten_flatMap_segment (kb : KB) :
    ∀ ps : List (List Char),
      ((ps.filter fun p => !p.isEmpty).flatMap (segment kb)).flatten = ps.flatten := by
  intro ps
  induction ps with
  | nil => rfl
  | cons p t ih =>
    by_cases hp : p.isEmpty
    · have hpn : p = [] := List.isEmpty_iff.mp hp
      rw [List.filter_cons, if_neg (by simp [hp]), ih, List.flatten_cons, hpn,
        List.nil_append]
    · rw [List.filter_cons, if_pos (by simp [hp]), List.flatMap_cons,
        List.flatten_append, segment_flatten, ih, List.flatten_cons]

theorem removeSpaces_joinSpace :
    ∀ ps : List (List Char),
      removeSpaces (joinSpace ps) = removeSpaces ps.flatten := by
  intro ps
  induction ps with
  | nil => rfl
  | cons p t ih =>
    cases t with
    | nil => simp [joinSpace]
    | cons q r =>
      simp only [joinSpace, List.flatten_cons]
      rw [removeSpaces_append, removeSpaces_append, removeSpaces_space_cons, ih,
        List.flatten_cons, removeSpaces_append]

/-! ### Losslessness: character provenance (every character of the
output is either an inserted space or a character of the input) -/

theorem mem_sub1 : ∀ l c, c ∈ sub1 l → c = ' ' ∨ c ∈ l := by
  intro l
  induction l with
  | nil => intro c hc; exact absurd hc (List.not_mem_nil c)
  | cons a t ih =>
    intro c hc
    cases t with
    | nil => exact Or.inr hc
    | cons b r =>
      simp only [sub1] at hc
      split at hc
      · rcases List.mem_cons.mp hc with rfl | hc
        · exact Or.inr (List.mem_cons_self _ _)
        · rcases List.mem_cons.mp hc with rfl | hc
          · exact Or.inl rfl
          · rcases ih c hc with h | h
            · exact Or.inl h
            · exact Or.inr (List.mem_cons_of_mem _ h)
      · rcases List.mem_cons.mp hc with rfl | hc
        · exact Or.inr (List.mem_cons_self _ _)
        · rcases ih c hc with h | h
          · exact Or.inl h
          · exact Or.inr (List.mem_cons_of_mem _ h)

theorem mem_sub2 : ∀ l c, c ∈ sub2 l → c = ' ' ∨ c ∈ l := by
  intro l
  induction l with
  | nil => intro c hc; exact absurd hc (List.not_mem_nil c)
  | cons a t ih =>
    intro c hc
    cases t with
    | nil => exact Or.inr hc
    | cons b r =>
      cases r with
      | nil => exact Or.inr hc
      | cons d rr =>
        simp only [sub2] at hc
        split at hc
        · rcases List.mem_cons.mp hc with rfl | hc
          · exact Or.inr (List.mem_cons_self _ _)
          · rcases List.mem_cons.mp hc with rfl | hc
            · exact Or.inl rfl
            · rcases ih c hc with h | h
              · exact Or.inl h
              · exact Or.inr (List.mem_cons_of_mem _ h)
        · rcases List.mem_cons.mp hc with rfl | hc
          · exact Or.inr (List.mem_cons_self _ _)
          · rcases ih c hc with h | h
            · exact Or.inl h
            · exact Or.inr (List.mem_cons_of_mem _ h)

theorem mem_sub3 : ∀ l c, c ∈ sub3 l → c = ' ' ∨ c ∈ l := by
  intro l
  induction l with
  | nil => intro c hc; exact absurd hc (List.not_mem_nil c)
  | cons a t ih =>
    intro c hc
    cases t with
    | nil => exact Or.inr hc
    | cons b r =>
      simp only [sub3] at hc
      split at hc
      · rcases List.mem_cons.mp hc with rfl | hc
        · exact Or.inr (List.mem_cons_self _ _)
        · rcases List.mem_cons.mp hc with rfl | hc
          · exact Or.inl rfl
          · rcases ih c hc with h | h
            · exact Or.inl h
            · exact Or.inr (List.mem_cons_of_mem _ h)
      · rcases List.mem_cons.mp hc with rfl | hc
        · exact Or.inr (List.mem_cons_self _ _)
        · rcases ih c hc with h | h
          · exact Or.inl h
          · exact Or.inr (List.mem_cons_of_mem _ h)

theorem mem_sub4 : ∀ l c, c ∈ sub4 l → c = ' ' ∨ c ∈ l := by
  intro l
  induction l with
  | nil => intro c hc; exact absurd hc (List.not_mem_nil c)
  | cons a t ih =>
    intro c hc
    cases t with
    | nil => exact Or.inr hc
    | cons b r =>
      simp only [sub4] at hc
      split at hc
      · rcases List.mem_cons.mp hc with rfl | hc
        · exact Or.inr (List.mem_cons_self _ _)
        · rcases List.mem_cons.mp hc with rfl | hc
          · exact Or.inl rfl
          · rcases ih c hc with h | h
            · exact Or.inl h
            · exact Or.inr (List.mem_cons_of_mem _ h)
      · rcases List.mem_cons.mp hc with rfl | hc
        · exact Or.inr (List.mem_cons_self _ _)
        · rcases ih c hc with h | h
          · exact Or.inl h
          · exact Or.inr (List.mem_cons_of_mem _ h)

theorem mem_collapseSpaces : ∀ l c, c ∈ collapseSpaces l → c ∈ l := by
  intro l
  induction l with
  | nil => intro c hc; exact absurd hc (List.not_mem_nil c)
  | cons a t ih =>
    intro c hc
    cases t with
    | nil => exact hc
    | cons b r =>
      simp only [collapseSpaces] at hc
      split at hc
      · exact List.mem_cons_of_mem _ (ih c hc)
      · rcases List.mem_cons.mp hc with rfl | hc
        · exact List.mem_cons_self _ _
        · exact List.mem_cons_of_mem _ (ih c hc)

theorem mem_pyStrip {l c} (hc : c ∈ pyStrip l) : c ∈ l := by
  unfold pyStrip at hc
  rw [List.mem_reverse] at hc
  have hc1 := List.dropWhile_subset _ hc
  rw [List.mem_reverse] at hc1
  exact List.dropWhile_subset _ hc1

/-- Every character of a non-space character of the input survives into
some piece; conversely every character of a piece comes from the split
string. -/
theorem mem_of_mem_splitOnSpace :
    ∀ l p c, p ∈ splitOnSpace l → c ∈ p → c ∈ l := by
  intro l
  induction l with
  | nil =>
    intro p c hp hc
    simp only [splitOnSpace, List.mem_singleton] at hp
    rw [hp] at hc
    exact absurd hc (List.not_mem_nil c)
  | cons d t ih =>
    intro p c hp hc
    simp only [splitOnSpace] at hp
    split at hp
    · rcases List.mem_cons.mp hp with rfl | hp
      · exact absurd hc (List.not_mem_nil c)
      · exact List.mem_cons_of_mem _ (ih p c hp hc)
    · cases hspl : splitOnSpace t with
      | nil =>
        rw [hspl] at hp
        simp only [consHead, List.mem_singleton] at hp
        rw [hp, List.mem_singleton] at hc
        rw [hc]
        exact List.mem_cons_self _ _
      | cons q qs =>
        rw [hspl] at hp
        simp only [consHead] at hp
        rcases List.mem_cons.mp hp with rfl | hp
        · rcases List.mem_cons.mp hc with rfl | hc
          · exact List.mem_cons_self _ _
          · exact List.mem_cons_of_mem _
              (ih q c (by rw [hspl]; exact List.mem_cons_self _ _) hc)
        · exact List.mem_cons_of_mem _
            (ih p c (by rw [hspl]; exact List.mem_cons_of_mem _ hp) hc)

theorem mem_joinSpace :
    ∀ ps (c : Char), c ∈ joinSpace ps → c = ' ' ∨ c ∈ ps.flatten := by
  intro ps
  induction ps with
  | nil => intro c hc; exact absurd hc (List.not_mem_nil c)
  | cons p t ih =>
    intro c hc
    cases t with
    | nil =>
      right
      simpa using hc
    | cons q r =>
      simp only [joinSpace] at hc
      rcases List.mem_append.mp hc with hc | hc
      · exact Or.inr (by rw [List.flatten_cons]; exact List.mem_append_left _ hc)
      · rcases List.mem_cons.mp hc with rfl | hc
        · exact Or.inl rfl
        · rcases ih c hc with h | h
          · exact Or.inl h
          · exact Or.inr (by rw [List.flatten_cons]; exact List.mem_append_right _ h)

/-- Character provenance through the whole of `separate_words_enhanced`:
the boundary passes only insert spaces and the segmenter only rearranges
substrings of the pieces. -/
theorem mem_cleanup {s c} (hc : c ∈ cleanupBoundaries s) : c = ' ' ∨ c ∈ s := by
  unfold cleanupBoundaries at hc
  have h4 := mem_collapseSpaces _ _ (mem_pyStrip hc)
  rcases mem_sub4 _ _ h4 with h | h
  · exact Or.inl h
  rcases mem_sub3 _ _ h with h | h
  · exact Or.inl h
  rcases mem_sub2 _ _ h with h | h
  · exact Or.inl h
  exact mem_sub1 _ _ h

/-- C1 as stated is false: on an input that is a single space, the whole
output is empty, so no removal of separators can reconstruct the input. -/
theorem losslessness_cex :
    removeSpaces (separate_words_enhanced (mkKB []) " ".data) ≠ " ".data := by
  decide

/-- C1 (amended): for every input containing no whitespace characters
and every knowledge base, removing the inserted space separators from
the output reconstructs the input exactly. -/
theorem losslessness (kb : KB) (s : List Char)
    (hs : ∀ c ∈ s, isPySpace c = false) :
    removeSpaces (separate_words_enhanced kb s) = s := by
  by_cases hnil : s.isEmpty
  · rw [List.isEmpty_iff] at hnil
    rw [hnil]
    rfl
  · unfold separate_words_enhanced
    rw [if_neg hnil]
    have hnospace : ∀ c ∈ s, c ≠ ' ' := by
      intro c hc he
      have := hs c hc
      rw [he] at this
      simp [isPySpace] at this
    have hsp_col : spacey (collapseSpaces (sub4 (sub3 (sub2 (sub1 s))))) := by
      intro c hc hpc
      have h4 := mem_collapseSpaces _ _ hc
      rcases mem_sub4 _ _ h4 with h | h
      · exact h
      rcases mem_sub3 _ _ h with h | h
      · exact h
      rcases mem_sub2 _ _ h with h | h
      · exact h
      rcases mem_sub1 _ _ h with h | h
      · exact h
      · exact absurd (hs c h) (by rw [hpc]; simp)
    have hflat : ((split_boundaries s).flatMap (segment kb)).flatten =
        removeSpaces (cleanupBoundaries s) := by
      rw [split_boundaries, flatten_flatMap_segment, initialParts,
        flatten_splitOnSpace]
    have hspJ : spacey (joinSpace ((split_boundaries s).flatMap (segment kb))) := by
      intro c hc hpc
      rcases mem_joinSpace _ c hc with h | h
      · exact h
      · rw [hflat] at h
        have hcl : c ∈ cleanupBoundaries s := mem_of_mem_removeSpaces h
        rcases mem_cleanup hcl with h' | h'
        · exact h'
        · exact absurd (hs c h') (by rw [hpc]; simp)
    rw [removeSpaces_pyStrip _ hspJ, removeSpaces_joinSpace, hflat,
      removeSpaces_idem]
    unfold cleanupBoundaries
    rw [removeSpaces_pyStrip _ hsp_col, removeSpaces_collapseSpaces,
      removeSpaces_sub4, removeSpaces_sub3, removeSpaces_sub2, removeSpaces_sub1]
    exact List.filter_eq_self.mpr fun c hc => by
      simpa using hnospace c hc

/-! ### Helpers for the remaining claims -/

theorem segment_single (kb : KB) (c : Char) : segment kb [c] = [[c]] := by
  by_cases h : kb (lowerStr [c])
  · simp [segment, h]
  · have hp : probes [c] = [[c]] := by
      simp [probes, List.range_succ]
    have hb : scanBest kb [] (probes [c]) = [] := by
      rw [hp]
      simp only [scanBest]
      rw [if_neg fun hh => h hh.1]
    simp [segment, h, segmentLoopF, hb]

theorem mkKB_nil_false (w : List Char) : mkKB [] w = false := rfl

theorem segment_false_kb (kb : KB) (hkb : ∀ w, kb w = false)
    (p : List Char) : segment kb p = [p] := by
  cases p with
  | nil => simp [segment, hkb, segmentLoopF]
  | cons c t =>
    have hb : scanBest kb [] (probes (c :: t)) = [] :=
      scanBest_none kb (probes (c :: t)) (fun w _ => hkb _) []
    simp [segment, hkb, segmentLoopF, hb]

theorem flatMap_segment_false_kb (kb : KB) (hkb : ∀ w, kb w = false) :
    ∀ ps : List (List Char), ps.flatMap (segment kb) = ps := by
  intro ps
  induction ps with
  | nil => rfl
  | cons p t ih =>
    rw [List.flatMap_cons, segment_false_kb kb hkb, ih, List.singleton_append]

theorem sub1_space_cons (l : List Char) : sub1 (' ' :: l) = ' ' :: sub1 l := by
  cases l with
  | nil => rfl
  | cons b r =>
    simp only [sub1]
    rw [if_neg fun h => absurd h.1 (by decide)]

theorem sub2_space_cons (l : List Char) : sub2 (' ' :: l) = ' ' :: sub2 l := by
  cases l with
  | nil => rfl
  | cons b r =>
    cases r with
    | nil => rfl
    | cons c rr =>
      simp only [sub2]
      rw [if_neg fun h => absurd h.1 (by decide)]

theorem sub3_space_cons (l : List Char) : sub3 (' ' :: l) = ' ' :: sub3 l := by
  cases l with
  | nil => rfl
  | cons b r =>
    simp only [sub3]
    rw [if_neg fun h => absurd h.1 (by decide)]

theorem sub4_space_cons (l : List Char) : sub4 (' ' :: l) = ' ' :: sub4 l := by
  cases l with
  | nil => rfl
  | cons b r =>
    simp only [sub4]
    rw [if_neg fun h => absurd h.1 (by decide)]

theorem pyStrip_space_cons (l : List Char) : pyStrip (' ' :: l) = pyStrip l := by
  unfold pyStrip
  rw [List.dropWhile_cons_of_pos (by decide)]

theorem pyStrip_collapse_space_cons (l : List Char) :
    pyStrip (collapseSpaces (' ' :: l)) = pyStrip (collapseSpaces l) := by
  cases l with
  | nil => rfl
  | cons b r =>
    by_cases hb : b = ' '
    · simp only [collapseSpaces]
      rw [if_pos (by exact ⟨trivial, hb⟩)]
    · simp only [collapseSpaces]
      rw [if_neg fun h => hb h.2, pyStrip_space_cons]

theorem cleanup_space_cons (s : List Char) :
    cleanupBoundaries (' ' :: s) = cleanupBoundaries s := by
  unfold cleanupBoundaries
  rw [sub1_space_cons, sub2_space_cons, sub3_space_cons, sub4_space_cons,
    pyStrip_collapse_space_cons]

theorem separate_space_cons (kb : KB) (s : List Char) :
    separate_words_enhanced kb (' ' :: s) = separate_words_enhanced kb s := by
  by_cases hnil : s.isEmpty
  · rw [List.isEmpty_iff] at hnil
    rw [hnil]
    rfl
  · show pyStrip (joinSpace ((split_boundaries (' ' :: s)).flatMap (segment kb))) = _
    unfold separate_words_enhanced
    rw [if_neg hnil]
    unfold split_boundaries initialParts
    rw [cleanup_space_cons]

/-! ### Factoring the pipeline across spaces (no rule ever fires on a
pair or triple containing a space, so every pass distributes over an
inserted or pre-existing space) -/

theorem sub1_append_space : ∀ xs ys : List Char,
    sub1 (xs ++ ' ' :: ys) = sub1 xs ++ ' ' :: sub1 ys := by
  intro xs ys
  induction xs with
  | nil => simpa using sub1_space_cons ys
  | cons a t ih =>
    cases t with
    | nil =>
      show sub1 (a :: ' ' :: ys) = sub1 [a] ++ ' ' :: sub1 ys
      simp only [sub1]
      rw [if_neg fun h => absurd h.2 (by decide), sub1_space_cons]
      rfl
    | cons b r =>
      show sub1 (a :: b :: (r ++ ' ' :: ys)) = sub1 (a :: b :: r) ++ ' ' :: sub1 ys
      by_cases hc : isLowAZ a ∧ isUpAZ b
      · simp only [sub1, if_pos hc]
        rw [show b :: (r ++ ' ' :: ys) = (b :: r) ++ ' ' :: ys from rfl, ih]
        rfl
      · simp only [sub1, if_neg hc]
        rw [show b :: (r ++ ' ' :: ys) = (b :: r) ++ ' ' :: ys from rfl, ih]
        rfl

theorem sub2_append_space : ∀ xs ys : List Char,
    sub2 (xs ++ ' ' :: ys) = sub2 xs ++ ' ' :: sub2 ys := by
  intro xs ys
  induction xs with
  | nil => simpa using sub2_space_cons ys
  | cons a t ih =>
    cases t with
    | nil =>
      cases ys with
      | nil => rfl
      | cons d ys2 =>
        show sub2 (a :: ' ' :: d :: ys2) = sub2 [a] ++ ' ' :: sub2 (d :: ys2)
        simp only [sub2]
        rw [if_neg fun h => absurd h.2.1 (by decide), sub2_space_cons]
        rfl
    | cons b r =>
      cases r with
      | nil =>
        show sub2 (a :: b :: ' ' :: ys) = sub2 [a, b] ++ ' ' :: sub2 ys
        simp only [sub2]
        rw [if_neg fun h => absurd h.2.2 (by decide),
          show b :: ' ' :: ys = [b] ++ ' ' :: ys from rfl, ih]
        rfl
      | cons d rr =>
        show sub2 (a :: b :: d :: (rr ++ ' ' :: ys)) =
          sub2 (a :: b :: d :: rr) ++ ' ' :: sub2 ys
        by_cases hc : isUpAZ a ∧ isUpAZ b ∧ isLowAZ d
        · simp only [sub2, if_pos hc]
          rw [show b :: d :: (rr ++ ' ' :: ys) = (b :: d :: rr) ++ ' ' :: ys from rfl,
            ih]
          rfl
        · simp only [sub2, if_neg hc]
          rw [show b :: d :: (rr ++ ' ' :: ys) = (b :: d :: rr) ++ ' ' :: ys from rfl,
            ih]
          rfl

theorem sub3_append_space : ∀ xs ys : List Char,
    sub3 (xs ++ ' ' :: ys) = sub3 xs ++ ' ' :: sub3 ys := by
  intro xs ys
  induction xs with
  | nil => simpa using sub3_space_cons ys
  | cons a t ih =>
    cases t with
    | nil =>
      show sub3 (a :: ' ' :: ys) = sub3 [a] ++ ' ' :: sub3 ys
      simp only [sub3]
      rw [if_neg fun h => absurd h.2 (by decide), sub3_space_cons]
      rfl
    | cons b r =>
      show sub3 (a :: b :: (r ++ ' ' :: ys)) = sub3 (a :: b :: r) ++ ' ' :: sub3 ys
      by_cases hc : isLetterAZ a ∧ isDigit09 b
      · simp only [sub3, if_pos hc]
        rw [show b :: (r ++ ' ' :: ys) = (b :: r) ++ ' ' :: ys from rfl, ih]
        rfl
      · simp only [sub3, if_neg hc]
        rw [show b :: (r ++ ' ' :: ys) = (b :: r) ++ ' ' :: ys from rfl, ih]
        rfl

theorem sub4_append_space : ∀ xs ys : List Char,
    sub4 (xs ++ ' ' :: ys) = sub4 xs ++ ' ' :: sub4 ys := by
  intro xs ys
  induction xs with
  | nil => simpa using sub4_space_cons ys
  | cons a t ih =>
    cases t with
    | nil =>
      show sub4 (a :: ' ' :: ys) = sub4 [a] ++ ' ' :: sub4 ys
      simp only [sub4]
      rw [if_neg fun h => absurd h.2 (by decide), sub4_space_cons]
      rfl
    | cons b r =>
      show sub4 (a :: b :: (r ++ ' ' :: ys)) = sub4 (a :: b :: r) ++ ' ' :: sub4 ys
      by_cases hc : isDigit09 a ∧ isLetterAZ b
      · simp only [sub4, if_pos hc]
        rw [show b :: (r ++ ' ' :: ys) = (b :: r) ++ ' ' :: ys from rfl, ih]
        rfl
      · simp only [sub4, if_neg hc]
        rw [show b :: (r ++ ' ' :: ys) = (b :: r) ++ ' ' :: ys from rfl, ih]
        rfl

theorem collapse_cons₂ (a b : Char) (rest : List Char) :
    collapseSpaces (a :: b :: rest) =
      if a = ' ' ∧ b = ' ' then collapseSpaces (b :: rest)
      else a :: collapseSpaces (b :: rest) := rfl

theorem collapse_space_space (ys : List Char) :
    collapseSpaces (' ' :: ' ' :: ys) = collapseSpaces (' ' :: ys) := by
  rw [collapse_cons₂, if_pos ⟨rfl, rfl⟩]

theorem collapse_double_space : ∀ xs ys : List Char,
    collapseSpaces (xs ++ ' ' :: ' ' :: ys) = collapseSpaces (xs ++ ' ' :: ys) := by
  intro xs
  induction xs with
  | nil => intro ys; exact collapse_space_space ys
  | cons a t ih =>
    intro ys
    cases t with
    | nil =>
      show collapseSpaces (a :: ' ' :: ' ' :: ys) = collapseSpaces (a :: ' ' :: ys)
      by_cases ha : a = ' '
      · subst ha
        rw [collapse_space_space, collapse_space_space ys]
      · rw [collapse_cons₂ a ' ', collapse_cons₂ a ' ',
          if_neg fun h => ha h.1, if_neg fun h => ha h.1, collapse_space_space]
    | cons b r =>
      show collapseSpaces (a :: b :: (r ++ ' ' :: ' ' :: ys)) =
        collapseSpaces (a :: b :: (r ++ ' ' :: ys))
      rw [collapse_cons₂, collapse_cons₂]
      by_cases hc : a = ' ' ∧ b = ' '
      · rw [if_pos hc, if_pos hc]
        exact ih ys
      · rw [if_neg hc, if_neg hc,
          show b :: (r ++ ' ' :: ' ' :: ys) = (b :: r) ++ ' ' :: ' ' :: ys from rfl,
          show b :: (r ++ ' ' :: ys) = (b :: r) ++ ' ' :: ys from rfl, ih]

theorem pyStrip_append_space (l : List Char) : pyStrip (l ++ [' ']) = pyStrip l := by
  unfold pyStrip
  rw [List.dropWhile_append]
  by_cases h : (l.dropWhile isPySpace).isEmpty
  · rw [if_pos h, List.isEmpty_iff.mp h]
    rfl
  · rw [if_neg h, List.reverse_append]
    show ((' ' :: (l.dropWhile isPySpace).reverse).dropWhile isPySpace).reverse = _
    rw [List.dropWhile_cons_of_pos (by decide)]

theorem collapse_append_space (A : List Char) :
    collapseSpaces (A ++ [' ']) = collapseSpaces A ++ [' '] ∨
      collapseSpaces (A ++ [' ']) = collapseSpaces A := by
  induction A with
  | nil => left; rfl
  | cons a t ih =>
    cases t with
    | nil =>
      by_cases ha : a = ' '
      · subst ha
        right
        rfl
      · left
        show collapseSpaces (a :: [' ']) = collapseSpaces [a] ++ [' ']
        rw [collapse_cons₂, if_neg fun h => ha h.1]
        rfl
    | cons b r =>
      have hlhs : collapseSpaces ((a :: b :: r) ++ [' ']) =
          collapseSpaces (a :: b :: (r ++ [' '])) := rfl
      rw [hlhs, collapse_cons₂ a b (r ++ [' ']), collapse_cons₂ a b r]
      by_cases hc : a = ' ' ∧ b = ' '
      · rcases ih with h | h
        · left
          rw [if_pos hc, if_pos hc]
          exact h
        · right
          rw [if_pos hc, if_pos hc]
          exact h
      · rcases ih with h | h
        · left
          rw [if_neg hc, if_neg hc,
            show b :: (r ++ [' ']) = (b :: r) ++ [' '] from rfl, h]
          rfl
        · right
          rw [if_neg hc, if_neg hc,
            show b :: (r ++ [' ']) = (b :: r) ++ [' '] from rfl, h]

theorem cleanup_double_space (s t : List Char) :
    cleanupBoundaries (s ++ ' ' :: ' ' :: t) = cleanupBoundaries (s ++ ' ' :: t) := by
  unfold cleanupBoundaries
  rw [sub1_append_space s (' ' :: t), sub1_append_space s t, sub1_space_cons t,
    sub2_append_space (sub1 s) (' ' :: sub1 t), sub2_append_space (sub1 s) (sub1 t),
    sub2_space_cons (sub1 t),
    sub3_append_space (sub2 (sub1 s)) (' ' :: sub2 (sub1 t)),
    sub3_append_space (sub2 (sub1 s)) (sub2 (sub1 t)),
    sub3_space_cons (sub2 (sub1 t)),
    sub4_append_space (sub3 (sub2 (sub1 s))) (' ' :: sub3 (sub2 (sub1 t))),
    sub4_append_space (sub3 (sub2 (sub1 s))) (sub3 (sub2 (sub1 t))),
    sub4_space_cons (sub3 (sub2 (sub1 t))),
    collapse_double_space]

theorem cleanup_trailing_space (s : List Char) :
    cleanupBoundaries (s ++ [' ']) = cleanupBoundaries s := by
  unfold cleanupBoundaries
  rw [sub1_append_space s [], sub2_append_space (sub1 s) (sub1 []),
    sub3_append_space (sub2 (sub1 s)) (sub2 (sub1 [])),
    sub4_append_space (sub3 (sub2 (sub1 s))) (sub3 (sub2 (sub1 [])))]
  rw [show sub4 (sub3 (sub2 (sub1 ([] : List Char)))) = [] from rfl]
  rcases collapse_append_space (sub4 (sub3 (sub2 (sub1 s)))) with h | h
  · rw [h, pyStrip_append_space]
  · rw [h]

theorem separate_double_space (kb : KB) (s t : List Char) :
    separate_words_enhanced kb (s ++ ' ' :: ' ' :: t) =
      separate_words_enhanced kb (s ++ ' ' :: t) := by
  unfold separate_words_enhanced
  rw [if_neg (by simp : ¬((s ++ ' ' :: ' ' :: t).isEmpty = true)),
    if_neg (by simp : ¬((s ++ ' ' :: t).isEmpty = true))]
  unfold split_boundaries initialParts
  rw [cleanup_double_space]

theorem separate_trailing_space (kb : KB) (s : List Char) :
    separate_words_enhanced kb (s ++ [' ']) = separate_words_enhanced kb s := by
  by_cases hnil : s.isEmpty
  · rw [List.isEmpty_iff.mp hnil]
    rfl
  · unfold separate_words_enhanced
    rw [if_neg (by simp : ¬((s ++ [' ']).isEmpty = true)), if_neg hnil]
    unfold split_boundaries initialParts
    rw [cleanup_trailing_space]

/-! ### Shape of the output: `pyStrip` results never start or end with
whitespace and the join of non-empty space-free pieces never contains
two adjacent spaces -/

/-- A stripped string sits inside the original: `pyStrip l` is an infix,
and the leading `dropWhile` result extends it only on the right. -/
theorem pyStrip_decomp (l : List Char) :
    ∃ u v, l.dropWhile isPySpace = pyStrip l ++ v ∧ l = u ++ pyStrip l ++ v := by
  obtain ⟨u, hu⟩ := List.dropWhile_suffix (l := l) isPySpace
  obtain ⟨w, hw⟩ :=
    List.dropWhile_suffix (l := (l.dropWhile isPySpace).reverse) isPySpace
  have h2 : l.dropWhile isPySpace = pyStrip l ++ w.reverse := by
    have hrev := congrArg List.reverse hw
    rw [List.reverse_append, List.reverse_reverse] at hrev
    exact hrev.symm
  refine ⟨u, w.reverse, h2, ?_⟩
  rw [List.append_assoc, ← h2, hu]

theorem pyStrip_head_not_space {l : List Char} {c : Char} {rest : List Char}
    (h : pyStrip l = c :: rest) : isPySpace c = false := by
  obtain ⟨u, v, h2, _⟩ := pyStrip_decomp l
  rw [h] at h2
  have hh := List.head?_dropWhile_not isPySpace l
  rw [h2] at hh
  simpa using hh

theorem pyStrip_getLast_not_space {l : List Char} {c : Char} {rest : List Char}
    (h : pyStrip l = rest ++ [c]) : isPySpace c = false := by
  have hX : (l.dropWhile isPySpace).reverse.dropWhile isPySpace =
      c :: rest.reverse := by
    have := congrArg List.reverse h
    simpa [pyStrip] using this
  have hh := List.head?_dropWhile_not isPySpace (l.dropWhile isPySpace).reverse
  rw [hX] at hh
  simpa using hh

theorem hasDbl_append_double : ∀ u v : List Char,
    hasDbl (u ++ ' ' :: ' ' :: v) = true := by
  intro u v
  induction u with
  | nil => simp [hasDbl]
  | cons a t ih =>
    cases t with
    | nil =>
      show hasDbl (a :: ' ' :: ' ' :: v) = true
      simp only [hasDbl]
      simp [hasDbl]
    | cons b r =>
      show hasDbl (a :: b :: (r ++ ' ' :: ' ' :: v)) = true
      simp only [hasDbl]
      rw [show b :: (r ++ ' ' :: ' ' :: v) = (b :: r) ++ ' ' :: ' ' :: v from rfl, ih]
      simp

theorem hasDbl_exists : ∀ {m : List Char}, hasDbl m = true →
    ∃ u v, m = u ++ ' ' :: ' ' :: v := by
  intro m
  induction m with
  | nil => intro h; simp [hasDbl] at h
  | cons a t ih =>
    intro h
    cases t with
    | nil => simp [hasDbl] at h
    | cons b r =>
      simp only [hasDbl, Bool.or_eq_true, Bool.and_eq_true, decide_eq_true_eq] at h
      rcases h with ⟨ha, hb⟩ | h
      · exact ⟨[], r, by rw [ha, hb]; rfl⟩
      · obtain ⟨u, v, huv⟩ := ih h
        exact ⟨a :: u, v, by rw [huv]; rfl⟩

theorem hasDbl_no_space_append : ∀ p m : List Char,
    ' ' ∉ p → hasDbl (p ++ m) = hasDbl m := by
  intro p
  induction p with
  | nil => intro m _; rfl
  | cons a t ih =>
    intro m hp
    have ha : ¬(a = ' ') := fun he => hp (he ▸ List.mem_cons_self a t)
    have ht : ' ' ∉ t := fun hm => hp (List.mem_cons_of_mem _ hm)
    cases t with
    | nil =>
      cases m with
      | nil => rfl
      | cons b m2 =>
        show hasDbl (a :: b :: m2) = hasDbl (b :: m2)
        simp only [hasDbl]
        rw [show decide (a = ' ') = false from by simp [ha]]
        simp
    | cons b r =>
      show hasDbl (a :: b :: (r ++ m)) = hasDbl m
      simp only [hasDbl]
      rw [show decide (a = ' ') = false from by simp [ha]]
      simp only [Bool.false_and, Bool.false_or]
      exact ih m ht

theorem hasDbl_joinSpace : ∀ ps : List (List Char),
    (∀ w ∈ ps, w ≠ [] ∧ ' ' ∉ w) → hasDbl (joinSpace ps) = false := by
  intro ps
  induction ps with
  | nil => intro _; rfl
  | cons q r ih =>
    intro hall
    have hq := hall q (List.mem_cons_self q r)
    cases r with
    | nil =>
      show hasDbl (joinSpace [q]) = false
      rw [show joinSpace [q] = q from rfl]
      have := hasDbl_no_space_append q [] hq.2
      rw [List.append_nil] at this
      exact this
    | cons x r2 =>
      show hasDbl (joinSpace (q :: x :: r2)) = false
      rw [show joinSpace (q :: x :: r2) = q ++ ' ' :: joinSpace (x :: r2) from rfl,
        hasDbl_no_space_append q _ hq.2]
      have hx := hall x (List.mem_cons_of_mem _ (List.mem_cons_self x r2))
      have hrec : hasDbl (joinSpace (x :: r2)) = false :=
        ih fun w hw => hall w (List.mem_cons_of_mem _ hw)
      obtain ⟨m, hm⟩ : ∃ m, joinSpace (x :: r2) = x ++ m := by
        cases r2 with
        | nil => exact ⟨[], (List.append_nil x).symm⟩
        | cons y r3 => exact ⟨' ' :: joinSpace (y :: r3), rfl⟩
      cases x with
      | nil => exact absurd rfl hx.1
      | cons xh xt =>
        rw [hm]
        show hasDbl (' ' :: xh :: (xt ++ m)) = false
        simp only [hasDbl]
        have hxh : ¬(xh = ' ') := fun he =>
          hx.2 (by rw [he]; exact List.mem_cons_self _ _)
        rw [show decide (xh = ' ') = false from by simp [hxh]]
        simp only [Bool.and_false, Bool.false_or]
        rw [show xh :: (xt ++ m) = (xh :: xt) ++ m from rfl, ← hm]
        exact hrec

theorem hasDbl_pyStrip {l : List Char} (h : hasDbl l = false) :
    hasDbl (pyStrip l) = false := by
  cases hb : hasDbl (pyStrip l) with
  | false => rfl
  | true =>
    obtain ⟨u, v, huv⟩ := hasDbl_exists hb
    obtain ⟨a, b, _, hab⟩ := pyStrip_decomp l
    rw [huv] at hab
    have hl : hasDbl l = true := by
      rw [hab,
        show a ++ (u ++ ' ' :: ' ' :: v) ++ b = (a ++ u) ++ ' ' :: ' ' :: (v ++ b) by
          simp]
      exact hasDbl_append_double _ _
    rw [hl] at h
    exact absurd h (by decide)

theorem mem_splitOnSpace_no_space : ∀ l p, p ∈ splitOnSpace l → ' ' ∉ p := by
  intro l
  induction l with
  | nil =>
    intro p hp
    simp only [splitOnSpace, List.mem_singleton] at hp
    rw [hp]
    exact List.not_mem_nil ' '
  | cons c t ih =>
    intro p hp
    simp only [splitOnSpace] at hp
    split at hp
    · rcases List.mem_cons.mp hp with rfl | hp
      · exact List.not_mem_nil ' '
      · exact ih p hp
    · next hc =>
      cases hspl : splitOnSpace t with
      | nil =>
        rw [hspl] at hp
        simp only [consHead, List.mem_singleton] at hp
        rw [hp]
        intro hm
        exact hc (List.mem_singleton.mp hm).symm
      | cons q qs =>
        rw [hspl] at hp
        simp only [consHead] at hp
        rcases List.mem_cons.mp hp with rfl | hp
        · intro hm
          rcases List.mem_cons.mp hm with he | hm
          · exact hc he.symm
          · exact ih q (by rw [hspl]; exact List.mem_cons_self _ _) hm
        · exact ih p (by rw [hspl]; exact List.mem_cons_of_mem _ hp)

theorem segmentLoopF_ne_nil (kb : KB) :
    ∀ (fuel : Nat) (s w : List Char), w ∈ segmentLoopF kb fuel s → w ≠ [] := by
  intro fuel
  induction fuel with
  | zero =>
    intro s w hw
    cases s with
    | nil => simp [segmentLoopF] at hw
    | cons c t =>
      simp only [segmentLoopF, List.mem_singleton] at hw
      rw [hw]
      simp
  | succ f ih =>
    intro s w hw
    cases s with
    | nil => simp [segmentLoopF] at hw
    | cons c t =>
      simp only [segmentLoopF] at hw
      by_cases hb : (scanBest kb [] (probes (c :: t))).isEmpty
      · rw [if_pos hb, List.mem_singleton] at hw
        rw [hw]
        simp
      · rw [if_neg hb] at hw
        rcases List.mem_cons.mp hw with rfl | hw
        · simpa using hb
        · exact ih _ w hw

theorem segment_piece_ne_nil (kb : KB) {p w : List Char} (hp : p ≠ [])
    (hw : w ∈ segment kb p) : w ≠ [] := by
  simp only [segment] at hw
  split at hw
  · rw [List.mem_singleton.mp hw]
    exact hp
  · split at hw
    · exact segmentLoopF_ne_nil kb _ _ w hw
    · rw [List.mem_singleton.mp hw]
      exact hp

theorem segment_piece_subset (kb : KB) {p w : List Char}
    (hw : w ∈ segment kb p) : ∀ c ∈ w, c ∈ p := by
  intro c hc
  have hcf : c ∈ (segment kb p).flatten := List.mem_flatten.mpr ⟨w, hw, hc⟩
  rwa [segment_flatten] at hcf

/-- The output of `separate` never contains two adjacent spaces: the
pieces joined are non-empty and space-free. -/
theorem separate_no_double_space (kb : KB) (text : List Char) :
    hasDbl (separate_words_enhanced kb text) = false := by
  unfold separate_words_enhanced
  by_cases hnil : text.isEmpty
  · rw [if_pos hnil]
    rfl
  · rw [if_neg hnil]
    apply hasDbl_pyStrip
    apply hasDbl_joinSpace
    intro w hw
    rw [List.mem_flatMap] at hw
    obtain ⟨p, hp, hwp⟩ := hw
    have hpf := List.mem_filter.mp hp
    have hpne : p ≠ [] := by
      intro h0
      rw [h0] at hpf
      simp at hpf
    refine ⟨segment_piece_ne_nil kb hpne hwp, ?_⟩
    intro hsp
    exact mem_splitOnSpace_no_space (cleanupBoundaries text) p hpf.1
      (segment_piece_subset kb hwp ' ' hsp)

/-- The output of `separate` never starts with a space. -/
theorem separate_head_ne_space (kb : KB) (text rest : List Char) :
    separate_words_enhanced kb text ≠ ' ' :: rest := by
  intro h
  unfold separate_words_enhanced at h
  by_cases hnil : text.isEmpty
  · rw [if_pos hnil] at h
    exact List.noConfusion h
  · rw [if_neg hnil] at h
    exact absurd (pyStrip_head_not_space h) (by decide)

/-- The output of `separate` never ends with a space. -/
theorem separate_getLast_ne_space (kb : KB) (text rest : List Char) :
    separate_words_enhanced kb text ≠ rest ++ [' '] := by
  intro h
  unfold separate_words_enhanced at h
  by_cases hnil : text.isEmpty
  · rw [if_pos hnil] at h
    exact List.noConfusion (List.append_eq_nil.mp h.symm).2
  · rw [if_neg hnil] at h
    exact absurd (pyStrip_getLast_not_space h) (by decide)

/-- Witness for C1 (amended) at `s = "HTMLParserGame2000"`. -/
theorem losslessness_witness :
    (∀ c ∈ "HTMLParserGame2000".data, isPySpace c = false) ∧
      removeSpaces
          (separate_words_enhanced (mkKB ["html", "parser", "game"])
            "HTMLParserGame2000".data) =
        "HTMLParserGame2000".data :=
  ⟨by decide,
    losslessness (mkKB ["html", "parser", "game"]) "HTMLParserGame2000".data
      (by decide)⟩

/-- C7: with an empty knowledge base (membership always false),
`separate` coincides with boundary splitting alone (the boundary-split
tokens joined with single spaces); wordlist segmentation never fires. -/
theorem empty_kb_noop (kb : KB) (hkb : ∀ w, kb w = false) (s : List Char) :
    separate_words_enhanced kb s = boundary_splitting_only s := by
  unfold separate_words_enhanced boundary_splitting_only
  rw [flatMap_segment_false_kb kb hkb]

/-- Witness for C7 at the concrete empty knowledge base and
`s = "HTMLParserGame2000"`. -/
theorem empty_kb_noop_witness :
    (∀ w, mkKB [] w = false) ∧
      separate_words_enhanced (mkKB []) "HTMLParserGame2000".data =
        boundary_splitting_only "HTMLParserGame2000".data :=
  ⟨fun _ => rfl,
    empty_kb_noop (mkKB []) (fun _ => rfl) "HTMLParserGame2000".data⟩

/-- C8: `separate` is a total function (it is a plain Lean `def`, so it
returns a result on every string and knowledge base and cannot raise),
and the empty input yields the empty output. -/
theorem separate_total_and_empty (kb : KB) (s : List Char) :
    (∃ r, separate_words_enhanced kb s = r) ∧
      separate_words_enhanced kb [] = [] :=
  ⟨⟨separate_words_enhanced kb s, rfl⟩, rfl⟩

/-- C9: spaces already present in the input are treated exactly like
inserted boundaries, for every input string and every knowledge base:
a run of spaces collapses to a single separator (doubling a space never
changes the output), a leading or trailing space is removed (adding one
never changes the output), and consequently `separate` is not the
identity on any input with a consecutive, leading, or trailing space;
for instance `separate("a  b", kb) = "a b"` for every `kb`. -/
theorem spaces_as_boundaries :
    (∀ (kb : KB) (s t : List Char),
        separate_words_enhanced kb (s ++ ' ' :: ' ' :: t) =
          separate_words_enhanced kb (s ++ ' ' :: t)) ∧
    (∀ (kb : KB) (s : List Char),
        separate_words_enhanced kb (' ' :: s) = separate_words_enhanced kb s) ∧
    (∀ (kb : KB) (s : List Char),
        separate_words_enhanced kb (s ++ [' ']) = separate_words_enhanced kb s) ∧
    (∀ (kb : KB) (s t : List Char),
        separate_words_enhanced kb (s ++ ' ' :: ' ' :: t) ≠ s ++ ' ' :: ' ' :: t) ∧
    (∀ (kb : KB) (s : List Char),
        separate_words_enhanced kb (' ' :: s) ≠ ' ' :: s) ∧
    (∀ (kb : KB) (s : List Char),
        separate_words_enhanced kb (s ++ [' ']) ≠ s ++ [' ']) ∧
    ∀ kb : KB, separate_words_enhanced kb "a  b".data = "a b".data := by
  refine ⟨separate_double_space, separate_space_cons, separate_trailing_space,
    ?_, ?_, ?_, ?_⟩
  · intro kb s t h
    have h2 := separate_no_double_space kb (s ++ ' ' :: ' ' :: t)
    rw [h, hasDbl_append_double s t] at h2
    exact absurd h2 (by decide)
  · intro kb s
    exact separate_head_ne_space kb (' ' :: s) s
  · intro kb s
    exact separate_getLast_ne_space kb (s ++ [' ']) s
  · intro kb
    show pyStrip (joinSpace
      ((split_boundaries "a  b".data).flatMap (segment kb))) = "a b".data
    rw [show split_boundaries "a  b".data = [['a'], ['b']] from rfl,
      List.flatMap_cons, List.flatMap_cons, List.flatMap_nil,
      segment_single, segment_single]
    rfl

end WordSep
